import Mathlib

/-!
Shallow embedding of the image-port snippets of `mike42/escpos-snippets`
(`src/image-ports/columnFormat.py` and `src/image-ports/rasterFormat.py`).

Bitmaps are lists of rows, each row a list of pixels, `true` = ink
(the state after the scripts' monochrome conversion: greyscale, invert,
threshold to 1-bit).  Bytes are `Nat` values below 256.  The fallible
integer encoder `_int_low_high` is embedded as an `Except`-valued
function mirroring the Python `raise ValueError` paths.
-/

namespace Escpos

/-- The byte-emission loop of `_int_low_high`: each iteration appends
`inp_number % 256` and replaces `inp_number` by `inp_number // 256`,
so the low byte comes first (little-endian). -/
def intBytesLoop : Nat → Nat → List Nat
  | _, 0 => []
  | n, k + 1 => n % 256 :: intBytesLoop (n / 256) k

/-- Function `_int_low_high(inp_number, out_bytes)` from `columnFormat.py` and
`rasterFormat.py` (the two copies are identical).  The Python bound
`max_input = (256 << (out_bytes * 8) - 1)` parses as
`256 <<< (out_bytes * 8 - 1)` because `<<` binds looser than `-`. -/
def int_low_high (inp_number : Nat) (out_bytes : Nat) : Except String (List Nat) :=
  let max_input := 256 <<< (out_bytes * 8 - 1)
  if ¬ (1 ≤ out_bytes ∧ out_bytes ≤ 4) then
    Except.error "Can only output 1-4 byes"
  else if ¬ (inp_number ≤ max_input) then
    Except.error "Number too large"
  else
    Except.ok (intBytesLoop inp_number out_bytes)

/-- Interpret a byte list as a little-endian integer (the spec's `decodeLE`). -/
def decodeLE : List Nat → Nat
  | [] => 0
  | b :: bs => b + 256 * decodeLE bs

theorem intBytesLoop_length : ∀ (k n : Nat), (intBytesLoop n k).length = k := by
  intro k
  induction k with
  | zero => intro n; rfl
  | succ k ih => intro n; simp [intBytesLoop, ih]

theorem mod_mul_decomp (a b c : Nat) : a % (b * c) = a % b + b * (a / b % c) := by
  conv_lhs => rw [← Nat.div_add_mod (a % (b * c)) b]
  rw [Nat.mod_mul_right_div_self, Nat.mod_mul_right_mod, Nat.add_comm, Nat.mul_comm]

theorem decodeLE_intBytesLoop : ∀ (k n : Nat), decodeLE (intBytesLoop n k) = n % 256 ^ k := by
  intro k
  induction k with
  | zero => intro n; simp [intBytesLoop, decodeLE, Nat.mod_one]
  | succ k ih =>
      intro n
      rw [intBytesLoop, decodeLE, ih, pow_succ, mul_comm (256 ^ k) 256, mod_mul_decomp]

theorem pow_mul_eight (n : Nat) : 256 ^ n = 2 ^ (8 * n) := by
  rw [pow_mul]
  norm_num

theorem shift_bound (n : Nat) (h : 1 ≤ n) : 256 <<< (n * 8 - 1) = 2 ^ (8 * n + 7) := by
  rw [Nat.shiftLeft_eq]
  have h8 : (256 : Nat) = 2 ^ 8 := by norm_num
  rw [h8, ← pow_add]
  congr 1
  omega

theorem int_low_high_ok (v n : Nat) (h1 : 1 ≤ n) (h2 : n ≤ 4)
    (hv : v ≤ 256 <<< (n * 8 - 1)) :
    int_low_high v n = Except.ok (intBytesLoop v n) := by
  simp only [int_low_high]
  rw [if_neg (not_not_intro ⟨h1, h2⟩), if_neg (not_not_intro hv)]

/-- C1 counterexample: `_int_low_high(256, 1)` does not raise although
`256 > 2^8 - 1`; it silently wraps 256 to the single byte `0`. -/
theorem c1_no_error_at_256 :
    int_low_high 256 1 = Except.ok [0] ∧ 256 > 2 ^ (8 * 1) - 1 := by
  constructor
  · rfl
  · decide

/-- C1 (amended): for `byteCount ∈ [1,4]`, `_int_low_high` raises a
`ValueError` exactly when the value exceeds the loosely computed bound
`256 << (8*byteCount - 1) = 2^(8*byteCount + 7)` — not at `2^(8*byteCount)`. -/
theorem c1_error_iff_above_loose_bound (v n : Nat) (h1 : 1 ≤ n) (h2 : n ≤ 4) :
    (∃ e, int_low_high v n = Except.error e) ↔ 2 ^ (8 * n + 7) < v := by
  rw [← shift_bound n h1]
  constructor
  · intro ⟨e, he⟩
    by_contra hle
    rw [int_low_high_ok v n h1 h2 (by omega)] at he
    exact Except.noConfusion he
  · intro hlt
    refine ⟨"Number too large", ?_⟩
    simp only [int_low_high]
    rw [if_neg (not_not_intro ⟨h1, h2⟩), if_pos (Nat.not_le.mpr hlt)]

theorem c1_error_iff_above_loose_bound_witness :
    ∃ e, int_low_high 32769 1 = Except.error e :=
  (c1_error_iff_above_loose_bound 32769 1 (by decide) (by decide)).mpr (by decide)

/-- C2: for `byteCount ∈ {1,2,3,4}` and `0 ≤ value < 2^(8*byteCount)`,
`_int_low_high` succeeds with exactly `byteCount` bytes, least-significant
first, and decoding them as a little-endian integer recovers the value. -/
theorem c2_little_endian_roundtrip (v n : Nat) (h1 : 1 ≤ n) (h2 : n ≤ 4)
    (hv : v < 2 ^ (8 * n)) :
    int_low_high v n = Except.ok (intBytesLoop v n) ∧
    (intBytesLoop v n).length = n ∧
    decodeLE (intBytesLoop v n) = v := by
  have hb : v ≤ 256 <<< (n * 8 - 1) := by
    rw [shift_bound n h1]
    have : (2 : Nat) ^ (8 * n) ≤ 2 ^ (8 * n + 7) :=
      Nat.pow_le_pow_right (by norm_num) (by omega)
    omega
  refine ⟨int_low_high_ok v n h1 h2 hb, intBytesLoop_length n v, ?_⟩
  rw [decodeLE_intBytesLoop, pow_mul_eight, Nat.mod_eq_of_lt hv]

theorem c2_little_endian_roundtrip_witness :
    int_low_high 300 2 = Except.ok (intBytesLoop 300 2) ∧
    (intBytesLoop 300 2).length = 2 ∧
    decodeLE (intBytesLoop 300 2) = 300 :=
  c2_little_endian_roundtrip 300 2 (by decide) (by decide) (by decide)

/-- C9: for `byteCount ∈ [1,4]` and `2^(8n) ≤ value ≤ 2^(8n+7)`,
`_int_low_high` raises no error and returns the `byteCount` little-endian
bytes of `value mod 2^(8n)`: over-range values at or below the loose bound
are silently wrapped. -/
theorem c9_silent_wrap (v n : Nat) (h1 : 1 ≤ n) (h2 : n ≤ 4)
    (_hlo : 2 ^ (8 * n) ≤ v) (hhi : v ≤ 2 ^ (8 * n + 7)) :
    int_low_high v n = Except.ok (intBytesLoop v n) ∧
    (intBytesLoop v n).length = n ∧
    decodeLE (intBytesLoop v n) = v % 2 ^ (8 * n) := by
  have hb : v ≤ 256 <<< (n * 8 - 1) := by rw [shift_bound n h1]; exact hhi
  exact ⟨int_low_high_ok v n h1 h2 hb, intBytesLoop_length n v, by
    rw [decodeLE_intBytesLoop, pow_mul_eight]⟩

theorem c9_silent_wrap_witness :
    int_low_high 300 1 = Except.ok (intBytesLoop 300 1) ∧
    (intBytesLoop 300 1).length = 1 ∧
    decodeLE (intBytesLoop 300 1) = 300 % 2 ^ (8 * 1) :=
  c9_silent_wrap 300 1 (by decide) (by decide) (by decide) (by decide)

/-! Bit packing: PIL mode-"1" `tobytes` semantics.

`Image.tobytes()` on a 1-bit image packs each row independently,
8 pixels per byte, most-significant bit = leftmost pixel, and the unused
low-order bits of a row's last byte are zero. -/

/-- Value of a bit list read most-significant-first. -/
def bitsVal (bits : List Bool) : Nat :=
  bits.foldl (fun a b => 2 * a + (if b then 1 else 0)) 0

/-- One packed byte: up to 8 pixels, MSB = leftmost, zero-padded on the
low-order side. -/
def byteOf (bits : List Bool) : Nat :=
  bitsVal (bits ++ List.replicate (8 - bits.length) false)

/-- Worker for `packRow`: take 8 pixels at a time; the fuel argument
(initially the row length, each step consumes at least one pixel) makes
the recursion structural. -/
def packRowGo : Nat → List Bool → List Nat
  | 0, _ => []
  | _, [] => []
  | fuel + 1, b :: rest =>
      byteOf (List.take 8 (b :: rest)) :: packRowGo fuel (List.drop 8 (b :: rest))

/-- Pack one pixel row into bytes, 8 pixels per byte, leftmost pixel in
the most significant bit, final partial byte zero-padded. -/
def packRow (row : List Bool) : List Nat :=
  packRowGo row.length row

/-- Function `_to_raster_format` from `rasterFormat.py`, applied to the
already-monochrome bitmap (the greyscale/invert/threshold steps produce
the `Bool` pixels, `true` = ink): `im.tobytes()` row-major. -/
def to_raster_format (im : List (List Bool)) : List Nat :=
  (im.map packRow).flatten

/-- The 8 bits of a byte, most significant first. -/
def byteBits (b : Nat) : List Bool :=
  [b / 128 % 2 == 1, b / 64 % 2 == 1, b / 32 % 2 == 1, b / 16 % 2 == 1,
   b / 8 % 2 == 1, b / 4 % 2 == 1, b / 2 % 2 == 1, b % 2 == 1]

/-- Cut a byte stream into `height` consecutive rows of `n` bytes each. -/
def splitRows (n : Nat) : Nat → List Nat → List (List Nat)
  | 0, _ => []
  | h + 1, l => l.take n :: splitRows n h (l.drop n)

/-- Decode a raster payload back into a bitmap, given the declared
`widthBytes`, `height` and pixel `width`. -/
def unpackRaster (payload : List Nat) (widthBytes height width : Nat) :
    List (List Bool) :=
  (splitRows widthBytes height payload).map
    (fun bs => ((bs.map byteBits).flatten).take width)

theorem byteBits_bitsVal_full :
    ∀ l : List Bool, l.length = 8 → byteBits (bitsVal l) = l := by
  intro l hl
  rcases l with _ | ⟨b0, l⟩ <;> simp_all
  rcases l with _ | ⟨b1, l⟩ <;> simp_all
  rcases l with _ | ⟨b2, l⟩ <;> simp_all
  rcases l with _ | ⟨b3, l⟩ <;> simp_all
  rcases l with _ | ⟨b4, l⟩ <;> simp_all
  rcases l with _ | ⟨b5, l⟩ <;> simp_all
  rcases l with _ | ⟨b6, l⟩ <;> simp_all
  rcases l with _ | ⟨b7, l⟩ <;> simp_all
  rcases l with _ | ⟨b8, l⟩ <;> simp_all
  revert b0 b1 b2 b3 b4 b5 b6 b7
  decide

theorem byteBits_byteOf (bits : List Bool) (h : bits.length ≤ 8) :
    byteBits (byteOf bits) = bits ++ List.replicate (8 - bits.length) false := by
  apply byteBits_bitsVal_full
  simp [List.length_replicate]
  omega

theorem packRowGo_nil (fuel : Nat) : packRowGo fuel [] = [] := by
  cases fuel <;> rfl

theorem packRowGo_bits : ∀ (fuel : Nat) (row : List Bool), row.length ≤ fuel →
    ((packRowGo fuel row).map byteBits).flatten =
      row ++ List.replicate (8 * ((row.length + 7) / 8) - row.length) false := by
  intro fuel
  induction fuel with
  | zero =>
      intro row hrow
      have : row = [] := List.eq_nil_of_length_eq_zero (Nat.le_zero.mp hrow)
      subst this
      rfl
  | succ fuel ih =>
      intro row hrow
      match row with
      | [] => rfl
      | b :: rest =>
          rw [packRowGo]
          by_cases hle : (b :: rest).length ≤ 8
          · have htake : List.take 8 (b :: rest) = b :: rest :=
              List.take_of_length_le hle
            have hdnil : List.drop 8 (b :: rest) = [] :=
              List.drop_eq_nil_of_le hle
            rw [htake, hdnil, packRowGo_nil]
            simp only [List.map_cons, List.map_nil, List.flatten_cons,
              List.flatten_nil, List.append_nil]
            rw [byteBits_byteOf _ hle]
            congr 2
            simp only [List.length_cons]
            simp only [List.length_cons] at hle
            omega
          · simp only [List.length_cons] at hle hrow
            have htake8 : (List.take 8 (b :: rest)).length = 8 := by
              simp only [List.length_take, List.length_cons]
              omega
            have hrec := ih (List.drop 8 (b :: rest)) (by
              simp only [List.length_drop, List.length_cons]
              omega)
            simp only [List.map_cons, List.flatten_cons]
            rw [byteBits_byteOf _ (le_of_eq htake8), htake8, hrec]
            simp only [Nat.sub_self, List.replicate_zero, List.append_nil]
            rw [← List.append_assoc, List.take_append_drop]
            congr 2
            simp only [List.length_drop, List.length_cons]
            omega

theorem packRow_bits (row : List Bool) :
    ((packRow row).map byteBits).flatten =
      row ++ List.replicate (8 * ((row.length + 7) / 8) - row.length) false :=
  packRowGo_bits row.length row (le_refl _)

theorem byteBits_length (b : Nat) : (byteBits b).length = 8 := rfl

theorem flatten_map_byteBits_length (bs : List Nat) :
    ((bs.map byteBits).flatten).length = 8 * bs.length := by
  induction bs with
  | nil => rfl
  | cons b bs ih =>
      simp only [List.map_cons, List.flatten_cons, List.length_append,
        byteBits_length, ih, List.length_cons]
      ring

theorem packRow_length (row : List Bool) :
    (packRow row).length = (row.length + 7) / 8 := by
  have h := packRow_bits row
  have hl := congrArg List.length h
  rw [flatten_map_byteBits_length] at hl
  simp only [List.length_append, List.length_replicate] at hl
  omega

theorem packRow_unpack (row : List Bool) :
    ((packRow row).map byteBits).flatten.take row.length = row := by
  rw [packRow_bits row, List.take_left]

theorem packRow_padding (row : List Bool) :
    ((packRow row).map byteBits).flatten.drop row.length =
      List.replicate (8 * ((row.length + 7) / 8) - row.length) false := by
  rw [packRow_bits row, List.drop_left]

theorem splitRows_flatten (n : Nat) (ls : List (List Nat))
    (h : ∀ l ∈ ls, l.length = n) :
    splitRows n ls.length ls.flatten = ls := by
  induction ls with
  | nil => rfl
  | cons l ls ih =>
      have hl : l.length = n := h l (List.mem_cons_self l ls)
      have ht : List.take n (l ++ ls.flatten) = l := hl ▸ List.take_left l ls.flatten
      have hd : List.drop n (l ++ ls.flatten) = ls.flatten :=
        hl ▸ List.drop_left l ls.flatten
      simp only [List.length_cons, List.flatten_cons, splitRows]
      rw [ht, hd, ih (fun x hx => h x (List.mem_cons_of_mem l hx))]

/-- C3: the raster encoder uses `widthBytes = ceil(width / 8)` (the
source's `(int)((width + 7) / 8)`), packs each row into exactly
`widthBytes` bytes, MSB = leftmost pixel, zero low-order padding bits on
each row's last byte, and unpacking the payload with the declared
`widthBytes` and `height` reconstructs the bitmap exactly. -/
theorem c3_raster_roundtrip (im : List (List Bool)) (width : Nat)
    (hw : ∀ row ∈ im, row.length = width) :
    unpackRaster (to_raster_format im) ((width + 7) / 8) im.length width = im ∧
    (∀ row ∈ im, (packRow row).length = (width + 7) / 8) ∧
    (∀ row ∈ im, ((packRow row).map byteBits).flatten.drop width =
      List.replicate (8 * ((width + 7) / 8) - width) false) ∧
    width ≤ 8 * ((width + 7) / 8) ∧ 8 * ((width + 7) / 8) < width + 8 := by
  have hlen : ∀ row ∈ im, (packRow row).length = (width + 7) / 8 := by
    intro row hrow
    rw [packRow_length, hw row hrow]
  refine ⟨?_, hlen, ?_, by omega, by omega⟩
  · unfold unpackRaster to_raster_format
    have hsplit : splitRows ((width + 7) / 8) im.length (im.map packRow).flatten
        = im.map packRow := by
      have := splitRows_flatten ((width + 7) / 8) (im.map packRow) (by
        intro l hl
        obtain ⟨row, hrow, rfl⟩ := List.mem_map.mp hl
        exact hlen row hrow)
      rwa [List.length_map] at this
    rw [hsplit, List.map_map]
    have : ∀ row ∈ im,
        ((packRow row).map byteBits).flatten.take width = row := by
      intro row hrow
      rw [← hw row hrow]
      exact packRow_unpack row
    calc (im.map fun row => ((packRow row).map byteBits).flatten.take width)
        = im.map id := List.map_congr_left (by intro a ha; simp [this a ha])
      _ = im := List.map_id im
  · intro row hrow
    rw [← hw row hrow]
    exact packRow_padding row

theorem c3_raster_roundtrip_witness :
    unpackRaster (to_raster_format [[true, false, true]]) ((3 + 7) / 8) 1 3
        = [[true, false, true]] ∧
    (∀ row ∈ [[true, false, true]], (packRow row).length = (3 + 7) / 8) ∧
    (∀ row ∈ [[true, false, true]],
      ((packRow row).map byteBits).flatten.drop 3 =
        List.replicate (8 * ((3 + 7) / 8) - 3) false) ∧
    3 ≤ 8 * ((3 + 7) / 8) ∧ 8 * ((3 + 7) / 8) < 3 + 8 :=
  c3_raster_roundtrip [[true, false, true]] 3 (by decide)

/-! Column format (`columnFormat.py`). -/

/-- Width of a list-of-rows image, PIL `im.size[0]` (rows all share one
length for a well-formed image; an empty image has width 0). -/
def imWidth (im : List (List Bool)) : Nat :=
  match im with
  | [] => 0
  | r :: _ => r.length

/-- Pixel at row `r`, column `c`; out-of-bounds reads give blank. -/
def pixel (im : List (List Bool)) (r c : Nat) : Bool :=
  (im.getD r []).getD c false

/-- PIL `transpose(Image.ROTATE_270)` (90° clockwise) by its index
semantics: output row `r`, column `c` holds input row `h-1-c`, column `r`;
a `w × h` image becomes `h × w`. -/
def pilRotate270 (im : List (List Bool)) : List (List Bool) :=
  (List.range (imWidth im)).map (fun r =>
    (List.range im.length).map (fun c => pixel im (im.length - 1 - c) r))

/-- PIL `transpose(Image.FLIP_LEFT_RIGHT)`: mirror each row. -/
def pilFlipLR (im : List (List Bool)) : List (List Bool) :=
  im.map List.reverse

/-- One vertical slice, as taken by
`im.transform((w, height), Image.EXTENT, (left, 0, left + w, height))`:
columns `left .. left+w-1` of every row; pixels beyond the image's right
edge are zero-filled (blank), per the spec's reading of the transform. -/
def extentSlice (im : List (List Bool)) (left w : Nat) : List (List Bool) :=
  im.map (fun row =>
    (row.drop left).take w ++
      List.replicate (w - ((row.drop left).take w).length) false)

/-- The `while left < width_pixels` loop of `_to_column_format`: each
iteration slices `line_height` columns starting at `left` (the caller
passes `line_height * 8`), packs the slice with `tobytes`, and advances
`left` by the slice width.  The fuel argument (initially `width - left`,
enough whenever `0 < lh`) makes the recursion structural; the Python
loop would never terminate for `lh = 0`, and the script only calls this
with `lh ∈ {8, 24}`. -/
def columnLoop (im : List (List Bool)) (lh width : Nat) : Nat → Nat → List (List Nat)
  | 0, _ => []
  | fuel + 1, left =>
      if left < width then
        to_raster_format (extentSlice im left lh) :: columnLoop im lh width fuel (left + lh)
      else []

/-- The strip loop of `_to_column_format` started at offset `left`. -/
def columnBlobs (im : List (List Bool)) (lh width left : Nat) : List (List Nat) :=
  columnLoop im lh width (width - left) left

/-- Function `_to_column_format(im, line_height)` from `columnFormat.py`. -/
def to_column_format (im : List (List Bool)) (line_height : Nat) : List (List Nat) :=
  columnBlobs im line_height (imWidth im) 0

/-- The `density_byte` of `columnFormat.py`:
`(1 if high_density_horizontal else 0) + (32 if high_density_vertical else 0)`. -/
def columnDensityByte (hdh hdv : Bool) : Nat :=
  (if hdh then 1 else 0) + (if hdv then 32 else 0)

/-- The per-strip commands written by `columnFormat.py`'s main block:
the header `ESC '*' density width_le2` is computed once before the loop
(`width_pixels` is the second component of the rotated image's size —
the source deliberately unpacks `height_pixels, width_pixels = im.size`
in swapped order), and each strip is written as `header + blob + "\n"`.
Input is the monochrome bitmap before the rotate/mirror step. -/
def column_strip_commands (bm : List (List Bool)) (hdh hdv : Bool) :
    Except String (List (List Nat)) :=
  let im := pilFlipLR (pilRotate270 bm)
  let line_height := if hdv then 3 else 1
  let blobs := to_column_format im (line_height * 8)
  let width_pixels := im.length
  match int_low_high width_pixels 2 with
  | Except.error e => Except.error e
  | Except.ok wle =>
      Except.ok (blobs.map (fun blob =>
        ([0x1b, 0x2a, columnDensityByte hdh hdv] ++ wle) ++ blob ++ [0x0a]))

/-- The full byte stream written by `columnFormat.py`'s main block:
`ESC '3' 16`, then every strip command, then `ESC '2'`. -/
def column_output (bm : List (List Bool)) (hdh hdv : Bool) :
    Except String (List Nat) :=
  match column_strip_commands bm hdh hdv with
  | Except.error e => Except.error e
  | Except.ok cmds => Except.ok ([0x1b, 0x33, 16] ++ cmds.flatten ++ [0x1b, 0x32])

/-! Raster format main block (`rasterFormat.py`). -/

/-- The `density_byte` of `rasterFormat.py`:
`(0 if high_density_vertical else 1) + (0 if high_density_horizontal else 2)`. -/
def rasterDensityByte (hdh hdv : Bool) : Nat :=
  (if hdv then 0 else 1) + (if hdh then 0 else 2)

/-- The byte stream written by `rasterFormat.py`'s main block:
`GS 'v' '0' density widthBytes_le2 height_le2` followed by the raster
payload, with `width_bytes = (width + 7) // 8`.  Input is the monochrome
bitmap. -/
def raster_output (bm : List (List Bool)) (hdh hdv : Bool) :
    Except String (List Nat) :=
  let width := imWidth bm
  let height_pixels := bm.length
  let width_bytes := (width + 7) / 8
  match int_low_high width_bytes 2, int_low_high height_pixels 2 with
  | Except.ok wb, Except.ok hb =>
      Except.ok (([0x1d, 0x76, 0x30, rasterDensityByte hdh hdv] ++ wb ++ hb)
        ++ to_raster_format bm)
  | Except.error e, _ => Except.error e
  | _, Except.error e => Except.error e

/-- The 16-wide, 8-tall all-ink bitmap of the spec's scenarios. -/
def allBlack16x8 : List (List Bool) :=
  List.replicate 8 (List.replicate 16 true)

/-- C7: on the 16×8 all-black bitmap with both densities high, the raster
encoder emits a single command with flag byte 0, widthBytes field 2,
height field 8 (both little-endian), and a payload of 16 bytes `0xFF`. -/
theorem c7_raster_scenario :
    raster_output allBlack16x8 true true =
      Except.ok ([0x1d, 0x76, 0x30, 0] ++ [2, 0] ++ [8, 0] ++
        List.replicate 16 0xff) := by
  rfl

theorem columnLoop_stop (im : List (List Bool)) (lh width fuel left : Nat)
    (h : ¬ left < width) : columnLoop im lh width fuel left = [] := by
  cases fuel
  · rfl
  · simp [columnLoop, h]

theorem columnLoop_congr (im : List (List Bool)) (lh width : Nat) (hlh : 0 < lh) :
    ∀ (f1 f2 left : Nat), width - left ≤ f1 → width - left ≤ f2 →
      columnLoop im lh width f1 left = columnLoop im lh width f2 left := by
  intro f1
  induction f1 with
  | zero =>
      intro f2 left h1 h2
      have hstop : ¬ left < width := by omega
      rw [columnLoop_stop im lh width 0 left hstop,
        columnLoop_stop im lh width f2 left hstop]
  | succ f1 ih =>
      intro f2 left h1 h2
      by_cases hlt : left < width
      · match f2 with
        | 0 => omega
        | f2 + 1 =>
            simp only [columnLoop, if_pos hlt]
            rw [ih f2 (left + lh) (by omega) (by omega)]
      · rw [columnLoop_stop im lh width (f1 + 1) left hlt,
          columnLoop_stop im lh width f2 left hlt]

theorem columnBlobs_unfold (im : List (List Bool)) (lh width left : Nat)
    (hlh : 0 < lh) :
    columnBlobs im lh width left =
      if left < width then
        to_raster_format (extentSlice im left lh) ::
          columnBlobs im lh width (left + lh)
      else [] := by
  unfold columnBlobs
  by_cases hlt : left < width
  · have h1 : width - left = (width - left - 1) + 1 := by omega
    rw [if_pos hlt, h1]
    simp only [columnLoop, if_pos hlt]
    rw [columnLoop_congr im lh width hlh (width - left - 1) (width - (left + lh))
      (left + lh) (by omega) (by omega)]
  · rw [if_neg hlt, columnLoop_stop im lh width (width - left) left hlt]

theorem columnBlobs_eq_range (im : List (List Bool)) (lh width : Nat)
    (hlh : 0 < lh) :
    ∀ (n left : Nat), width - left ≤ n →
      columnBlobs im lh width left =
        (List.range ((width - left + lh - 1) / lh)).map
          (fun i => to_raster_format (extentSlice im (left + i * lh) lh)) := by
  intro n
  induction n with
  | zero =>
      intro left h
      have hstop : ¬ left < width := by omega
      rw [columnBlobs_unfold im lh width left hlh, if_neg hstop]
      have hz : width - left = 0 := by omega
      rw [hz]
      have hd : (0 + lh - 1) / lh = 0 := Nat.div_eq_of_lt (by omega)
      rw [hd]
      rfl
  | succ n ih =>
      intro left h
      by_cases hlt : left < width
      · rw [columnBlobs_unfold im lh width left hlh, if_pos hlt,
          ih (left + lh) (by omega)]
        have hc : (width - left + lh - 1) / lh
            = (width - (left + lh) + lh - 1) / lh + 1 := by
          rcases Nat.lt_or_ge lh (width - left) with hgt | hle2
          · have he : width - left + lh - 1 = (width - (left + lh) + lh - 1) + lh := by
              omega
            rw [he, Nat.add_div_right _ hlh]
          · have he0 : width - (left + lh) = 0 := by omega
            rw [he0]
            have h1 : (0 + lh - 1) / lh = 0 := Nat.div_eq_of_lt (by omega)
            rw [h1]
            exact Nat.div_eq_of_lt_le (by omega) (by omega)
        rw [hc, List.range_succ_eq_map]
        simp only [List.map_cons, List.map_map]
        congr 1
        · simp
        · apply List.map_congr_left
          intro i _
          simp only [Function.comp_apply]
          have harg : Nat.succ i * lh = lh + i * lh := by
            rw [Nat.succ_mul]
            omega
          rw [harg, ← Nat.add_assoc]
      · rw [columnBlobs_unfold im lh width left hlh, if_neg hlt]
        have hz : width - left = 0 := by omega
        rw [hz]
        have hd : (0 + lh - 1) / lh = 0 := Nat.div_eq_of_lt (by omega)
        rw [hd]
        rfl

theorem extentSlice_row_length (im : List (List Bool)) (left w : Nat) :
    ∀ r ∈ extentSlice im left w, r.length = w := by
  intro r hr
  unfold extentSlice at hr
  obtain ⟨row, _, rfl⟩ := List.mem_map.mp hr
  simp only [List.length_append, List.length_replicate, List.length_take,
    List.length_drop]
  omega

theorem flatten_length_const {α : Type} (ls : List (List α)) (n : Nat)
    (h : ∀ l ∈ ls, l.length = n) : ls.flatten.length = ls.length * n := by
  induction ls with
  | nil => simp
  | cons l ls ih =>
      simp only [List.flatten_cons, List.length_append, List.length_cons,
        h l (List.mem_cons_self l ls),
        ih (fun x hx => h x (List.mem_cons_of_mem l hx))]
      ring

theorem to_raster_format_length (im : List (List Bool)) (w : Nat)
    (h : ∀ r ∈ im, r.length = w) :
    (to_raster_format im).length = im.length * ((w + 7) / 8) := by
  unfold to_raster_format
  rw [flatten_length_const (im.map packRow) ((w + 7) / 8) (by
    intro l hl
    obtain ⟨row, hrow, rfl⟩ := List.mem_map.mp hl
    rw [packRow_length, h row hrow]), List.length_map]

/-- C5: for any (rotated) bitmap and `stripWidth = lineHeight * 8`, the
strip loop emits exactly `ceil(width / stripWidth)` blobs, the `i`-th
taken at horizontal offset `i * stripWidth` (left-to-right order); every
slice row is exactly `stripWidth` pixels, the pixels past the original
row being blank (`false`) right-padding; and every emitted blob has the
same byte length `height * lineHeight`. -/
theorem c5_column_strips (im : List (List Bool)) (lineHeight : Nat)
    (hlh : 0 < lineHeight) :
    to_column_format im (lineHeight * 8) =
      (List.range ((imWidth im + lineHeight * 8 - 1) / (lineHeight * 8))).map
        (fun i => to_raster_format
          (extentSlice im (i * (lineHeight * 8)) (lineHeight * 8))) ∧
    (∀ blob ∈ to_column_format im (lineHeight * 8),
      blob.length = im.length * lineHeight) ∧
    (∀ left, ∀ r ∈ extentSlice im left (lineHeight * 8),
      r.length = lineHeight * 8) ∧
    (∀ left, extentSlice im left (lineHeight * 8) = im.map (fun row =>
      (row.drop left).take (lineHeight * 8) ++
        List.replicate
          (lineHeight * 8 - min (lineHeight * 8) (row.length - left))
          false)) := by
  have hsw : 0 < lineHeight * 8 := by omega
  have hmain := columnBlobs_eq_range im (lineHeight * 8) (imWidth im) hsw
    (imWidth im) 0 (by omega)
  refine ⟨?_, ?_, fun left => extentSlice_row_length im left (lineHeight * 8), ?_⟩
  · unfold to_column_format
    rw [hmain]
    simp only [Nat.sub_zero, Nat.zero_add]
  · intro blob hblob
    unfold to_column_format at hblob
    rw [hmain] at hblob
    obtain ⟨i, _, rfl⟩ := List.mem_map.mp hblob
    rw [to_raster_format_length (extentSlice im (0 + i * (lineHeight * 8))
      (lineHeight * 8)) (lineHeight * 8)
      (extentSlice_row_length im _ (lineHeight * 8))]
    have hlen : (extentSlice im (0 + i * (lineHeight * 8))
        (lineHeight * 8)).length = im.length := by
      unfold extentSlice
      rw [List.length_map]
    rw [hlen]
    congr 1
    omega
  · intro left
    unfold extentSlice
    apply List.map_congr_left
    intro row _
    congr 2
    simp only [List.length_take, List.length_drop]

theorem c5_column_strips_witness :
    (to_column_format [[true, false, true]] (1 * 8) =
      (List.range ((imWidth [[true, false, true]] + 1 * 8 - 1) / (1 * 8))).map
        (fun i => to_raster_format
          (extentSlice [[true, false, true]] (i * (1 * 8)) (1 * 8)))) ∧
    (∀ blob ∈ to_column_format [[true, false, true]] (1 * 8),
      blob.length = [[true, false, true]].length * 1) ∧
    (∀ left, ∀ r ∈ extentSlice [[true, false, true]] left (1 * 8),
      r.length = 1 * 8) ∧
    (∀ left, extentSlice [[true, false, true]] left (1 * 8) =
      [[true, false, true]].map (fun row =>
        (row.drop left).take (1 * 8) ++
          List.replicate (1 * 8 - min (1 * 8) (row.length - left)) false)) :=
  c5_column_strips [[true, false, true]] 1 (by decide)

theorem int_low_high_ok_inv (v n : Nat) (bs : List Nat)
    (h : int_low_high v n = Except.ok bs) : bs = intBytesLoop v n := by
  simp only [int_low_high] at h
  split at h
  · cases h
  · split at h
    · cases h
    · cases h
      rfl

theorem rotated_length (bm : List (List Bool)) :
    (pilFlipLR (pilRotate270 bm)).length = imWidth bm := by
  unfold pilFlipLR pilRotate270
  rw [List.length_map, List.length_map, List.length_range]

theorem shift15_value : (256 : Nat) <<< (2 * 8 - 1) = 8388608 := by
  norm_num [Nat.shiftLeft_eq]

/-- C8: on the 16×8 all-black bitmap with both densities high, the column
encoder uses `lineHeight = 3` (strip width 24); the rotated bitmap is
8 pixels wide, so exactly one strip is emitted, its slice zero-padded from
8 to 24 columns; the command carries flag byte 33 = 1 + 32 and width
field 16 (little-endian `[16, 0]`). -/
theorem c8_column_scenario :
    column_strip_commands allBlack16x8 true true =
      Except.ok [[0x1b, 0x2a, 33, 16, 0] ++
        (List.replicate 16 [0xff, 0x00, 0x00]).flatten ++ [0x0a]] ∧
    to_column_format (pilFlipLR (pilRotate270 allBlack16x8))
        ((if true then 3 else 1) * 8) =
      [(List.replicate 16 [0xff, 0x00, 0x00]).flatten] ∧
    imWidth (pilFlipLR (pilRotate270 allBlack16x8)) = 8 ∧
    extentSlice (pilFlipLR (pilRotate270 allBlack16x8)) 0 24 =
      List.replicate 16 (List.replicate 8 true ++ List.replicate 16 false) :=
  ⟨rfl, rfl, rfl, rfl⟩

/-- C4 counterexample: for the 16×8 all-black bitmap the single strip
command's width field is `[16, 0]`, decoding to 16 — the original image's
*width* — while the original image's height is 8. -/
theorem c4_counterexample :
    column_strip_commands allBlack16x8 true true =
      Except.ok [[0x1b, 0x2a, 33, 16, 0] ++
        (List.replicate 16 [0xff, 0x00, 0x00]).flatten ++ [0x0a]] ∧
    decodeLE [16, 0] = 16 ∧
    allBlack16x8.length = 8 ∧
    (16 : Nat) ≠ 8 :=
  ⟨rfl, rfl, rfl, by decide⟩

/-- C4 (amended): the 2-byte little-endian width field written in each
strip command's header equals the *original image's width* (the rotated
bitmap's height), not its height. -/
theorem c4_width_field_is_original_width (bm : List (List Bool)) (hdh hdv : Bool)
    (h : imWidth bm < 65536) :
    ∃ cmds, column_strip_commands bm hdh hdv = Except.ok cmds ∧
      (∀ c ∈ cmds, ∃ blob, c =
        [0x1b, 0x2a, columnDensityByte hdh hdv, imWidth bm % 256,
          imWidth bm / 256 % 256] ++ blob ++ [0x0a]) ∧
      decodeLE [imWidth bm % 256, imWidth bm / 256 % 256] = imWidth bm := by
  have him := rotated_length bm
  have hok : int_low_high (imWidth bm) 2 =
      Except.ok (intBytesLoop (imWidth bm) 2) := by
    apply int_low_high_ok _ 2 (by omega) (by omega)
    rw [shift15_value]
    omega
  refine ⟨(to_column_format (pilFlipLR (pilRotate270 bm))
      ((if hdv then 3 else 1) * 8)).map
      (fun blob => ([0x1b, 0x2a, columnDensityByte hdh hdv] ++
        intBytesLoop (imWidth bm) 2) ++ blob ++ [0x0a]), ?_, ?_, ?_⟩
  · simp only [column_strip_commands]
    rw [him, hok]
  · intro c hc
    obtain ⟨blob, _, rfl⟩ := List.mem_map.mp hc
    exact ⟨blob, rfl⟩
  · simp only [decodeLE]
    have hd : imWidth bm / 256 % 256 = imWidth bm / 256 :=
      Nat.mod_eq_of_lt (by omega)
    rw [hd]
    omega

theorem c4_width_field_is_original_width_witness :
    ∃ cmds, column_strip_commands allBlack16x8 true true = Except.ok cmds ∧
      (∀ c ∈ cmds, ∃ blob, c =
        [0x1b, 0x2a, columnDensityByte true true, imWidth allBlack16x8 % 256,
          imWidth allBlack16x8 / 256 % 256] ++ blob ++ [0x0a]) ∧
      decodeLE [imWidth allBlack16x8 % 256, imWidth allBlack16x8 / 256 % 256] =
        imWidth allBlack16x8 :=
  c4_width_field_is_original_width allBlack16x8 true true (by decide)

/-- C6: the column-format run writes exactly: set-line-spacing
`ESC '3' 0x10`; for each strip in order the header
`ESC '*' flag width_le2` then the strip payload then one `0x0A` byte;
finally reset `ESC '2'` — and nothing else. -/
theorem c6_column_stream (bm : List (List Bool)) (hdh hdv : Bool)
    (h : imWidth bm < 65536) :
    column_output bm hdh hdv = Except.ok (
      [0x1b, 0x33, 0x10] ++
      ((to_column_format (pilFlipLR (pilRotate270 bm))
          ((if hdv then 3 else 1) * 8)).map
        (fun blob => [0x1b, 0x2a, columnDensityByte hdh hdv,
          imWidth bm % 256, imWidth bm / 256 % 256] ++ blob ++ [0x0a])).flatten ++
      [0x1b, 0x32]) := by
  have him := rotated_length bm
  have hok : int_low_high (imWidth bm) 2 =
      Except.ok (intBytesLoop (imWidth bm) 2) := by
    apply int_low_high_ok _ 2 (by omega) (by omega)
    rw [shift15_value]
    omega
  simp only [column_output, column_strip_commands]
  rw [him, hok]
  rfl

theorem c6_column_stream_witness :
    column_output allBlack16x8 true true = Except.ok (
      [0x1b, 0x33, 0x10] ++
      ((to_column_format (pilFlipLR (pilRotate270 allBlack16x8))
          ((if true then 3 else 1) * 8)).map
        (fun blob => [0x1b, 0x2a, columnDensityByte true true,
          imWidth allBlack16x8 % 256, imWidth allBlack16x8 / 256 % 256] ++
            blob ++ [0x0a])).flatten ++
      [0x1b, 0x32]) :=
  c6_column_stream allBlack16x8 true true (by decide)

/-- C10: the 5-byte strip header is computed once before the strip loop:
every emitted strip command starts with the same five bytes
`ESC '*' density width_lo width_hi`, a value depending only on the input
bitmap and the density settings, never on the strip's index or pixels. -/
theorem c10_header_shared (bm : List (List Bool)) (hdh hdv : Bool)
    (cmds : List (List Nat))
    (h : column_strip_commands bm hdh hdv = Except.ok cmds) :
    (∀ c ∈ cmds, c.take 5 =
      [0x1b, 0x2a, columnDensityByte hdh hdv] ++
        intBytesLoop (pilFlipLR (pilRotate270 bm)).length 2) ∧
    (∀ c1 ∈ cmds, ∀ c2 ∈ cmds, c1.take 5 = c2.take 5) := by
  simp only [column_strip_commands] at h
  have hp : ∀ c ∈ cmds, c.take 5 =
      [0x1b, 0x2a, columnDensityByte hdh hdv] ++
        intBytesLoop (pilFlipLR (pilRotate270 bm)).length 2 := by
    cases hi : int_low_high (pilFlipLR (pilRotate270 bm)).length 2 with
    | error e =>
        rw [hi] at h
        cases h
    | ok wle =>
        rw [hi] at h
        obtain rfl := int_low_high_ok_inv _ _ _ hi
        injection h with h
        subst h
        intro c hc
        obtain ⟨blob, _, rfl⟩ := List.mem_map.mp hc
        rfl
  exact ⟨hp, fun c1 h1 c2 h2 => (hp c1 h1).trans (hp c2 h2).symm⟩

theorem c10_header_shared_witness :
    (∀ c ∈ [[0x1b, 0x2a, 33, 16, 0] ++
        (List.replicate 16 [0xff, 0x00, 0x00]).flatten ++ [0x0a]],
      c.take 5 = [0x1b, 0x2a, columnDensityByte true true] ++
        intBytesLoop (pilFlipLR (pilRotate270 allBlack16x8)).length 2) ∧
    (∀ c1 ∈ [[0x1b, 0x2a, 33, 16, 0] ++
        (List.replicate 16 [0xff, 0x00, 0x00]).flatten ++ [0x0a]],
      ∀ c2 ∈ [[0x1b, 0x2a, 33, 16, 0] ++
        (List.replicate 16 [0xff, 0x00, 0x00]).flatten ++ [0x0a]],
      c1.take 5 = c2.take 5) :=
  c10_header_shared allBlack16x8 true true _ rfl

end Escpos
